import Mathlib

/-!
Verification development for the data-ingestor transactional batch
ingestion engine.  Each definition below is a shallow embedding of a
function of the Go source (file and line references are given on every
definition); the theorems settle the specification claims against those
embeddings.

Modelling conventions:
* a Go `error` value is `Option String` (`none` = nil error);
* a `*sql.Tx` is identified by a natural number handle, a nil `*sql.Tx`
  is `Option.none`;
* outcomes of external store calls (`db.Begin`, `tx.Exec`, `tx.Commit`,
  `tx.Rollback`) are inputs of the embedding: the model is parametrised
  by what the store answers, and records which finalization calls the
  code performs as a list of actions.
-/

namespace DataIngestor

/-- `mapreduce.MapResult` (mapreduce package, `MapResult` struct):
`BatchID int`, `Err error`, `Tx *sql.Tx`. -/
structure MapResult where
  batchID : Nat
  err : Option String
  tx : Option Nat
  deriving DecidableEq, Repr

/-- A finalization call performed by the coordinator on a transaction
handle: `tx.Commit()` or `tx.Rollback()`. -/
inductive FinalizeAction where
  | commit (txId : Nat)
  | rollback (txId : Nat)
  deriving DecidableEq, Repr

/-- The pre-check loop of `ProcessMapResults`
(dbtransposer/dbtransposer.go lines 177-189): `hasError` becomes true
iff some result has a nil transaction or a non-nil error. -/
def hasErrorCheck (results : List MapResult) : Bool :=
  results.any (fun r => r.tx.isNone || r.err.isSome)

/-- The commit loop of `ProcessMapResults` (dbtransposer/dbtransposer.go
lines 207-215): commit each non-nil transaction in order; on the first
commit failure return that error immediately (the remaining
transactions are not visited).  `commitErr t` is the store's answer to
`Commit()` on transaction `t`. -/
def commitLoop (commitErr : Nat → Option String) :
    List MapResult → List FinalizeAction × Option String
  | [] => ([], none)
  | r :: rest =>
    match r.tx with
    | none => commitLoop commitErr rest
    | some t =>
      match commitErr t with
      | some e =>
        ([FinalizeAction.commit t],
         some ("failed to commit transaction for batch " ++ toString r.batchID ++ ": " ++ e))
      | none =>
        let rec' := commitLoop commitErr rest
        (FinalizeAction.commit t :: rec'.1, rec'.2)

/-- `ProcessMapResults` (dbtransposer/dbtransposer.go lines 174-219).
Returns the list of finalization calls performed, in order, and the
function's returned error (`none` = nil).  `rollbackErr` is the store's
answer to `Rollback()`; the code only logs rollback failures, so the
parameter does not influence the result (kept for fidelity to the
signature of the store boundary). -/
def processMapResults (commitErr rollbackErr : Nat → Option String)
    (results : List MapResult) : List FinalizeAction × Option String :=
  if hasErrorCheck results then
    (results.filterMap (fun r => r.tx.map FinalizeAction.rollback),
     some "map phase completed with errors; all transactions rolled back")
  else
    commitLoop commitErr results

theorem hasErrorCheck_eq_false_iff (results : List MapResult) :
    hasErrorCheck results = false ↔
      ∀ r ∈ results, r.err = none ∧ r.tx ≠ none := by
  unfold hasErrorCheck
  rw [List.any_eq_false]
  constructor
  · intro h r hr
    have h2 := h r hr
    constructor
    · by_contra he
      apply h2
      cases herr : r.err with
      | none => exact absurd herr he
      | some e => simp [herr]
    · intro htx
      exact h2 (by simp [htx])
  · intro h r hr hcontra
    rcases h r hr with ⟨h1, h2⟩
    simp only [Bool.or_eq_true] at hcontra
    rcases hcontra with hc | hc
    · exact h2 (Option.isNone_iff_eq_none.mp hc)
    · rw [h1] at hc
      simp at hc

theorem commitLoop_all_ok (commitErr : Nat → Option String)
    (results : List MapResult)
    (hok : ∀ r ∈ results, ∀ t, r.tx = some t → commitErr t = none) :
    commitLoop commitErr results =
      (results.filterMap (fun r => r.tx.map FinalizeAction.commit), none) := by
  induction results with
  | nil => rfl
  | cons r rest ih =>
    have hr : ∀ t, r.tx = some t → commitErr t = none :=
      fun t ht => hok r (List.mem_cons_self r rest) t ht
    have hrest : ∀ q ∈ rest, ∀ t, q.tx = some t → commitErr t = none :=
      fun q hq t ht => hok q (List.mem_cons_of_mem r hq) t ht
    cases htx : r.tx with
    | none => simp [commitLoop, htx, ih hrest]
    | some t =>
      have := hr t htx
      simp [commitLoop, htx, this, ih hrest]

/-- C1: barrier correctness of `ProcessMapResults`
(dbtransposer/dbtransposer.go lines 174-219).
(a) If every `MapResult` has a non-nil transaction and a nil error (and
the store accepts every commit), then `Commit` is invoked on every
transaction, no `Rollback` is invoked, and the run returns nil
(success).
(b) If at least one result has a non-nil error or a nil transaction,
then `Rollback` is invoked on every non-nil transaction (including
those of error-free results), no `Commit` is invoked, and the run
returns an error. -/
theorem processMapResults_barrier (commitErr rollbackErr : Nat → Option String)
    (results : List MapResult) :
    ((∀ r ∈ results, r.err = none ∧ r.tx ≠ none) →
      (∀ r ∈ results, ∀ t, r.tx = some t → commitErr t = none) →
      processMapResults commitErr rollbackErr results =
        (results.filterMap (fun r => r.tx.map FinalizeAction.commit), none) ∧
      (∀ t, FinalizeAction.rollback t ∉
        (processMapResults commitErr rollbackErr results).1)) ∧
    ((∃ r ∈ results, r.err ≠ none ∨ r.tx = none) →
      (processMapResults commitErr rollbackErr results).1 =
        results.filterMap (fun r => r.tx.map FinalizeAction.rollback) ∧
      (∀ t, FinalizeAction.commit t ∉
        (processMapResults commitErr rollbackErr results).1) ∧
      (processMapResults commitErr rollbackErr results).2 ≠ none) := by
  constructor
  · intro hclean hcommit
    have hfalse : hasErrorCheck results = false :=
      (hasErrorCheck_eq_false_iff results).mpr hclean
    have heq : processMapResults commitErr rollbackErr results =
        (results.filterMap (fun r => r.tx.map FinalizeAction.commit), none) := by
      simp [processMapResults, hfalse, commitLoop_all_ok commitErr results hcommit]
    refine ⟨heq, ?_⟩
    intro t ht
    rw [heq] at ht
    simp only [List.mem_filterMap, Option.map_eq_some'] at ht
    rcases ht with ⟨r, -, u, -, habs⟩
    simp at habs
  · intro hbad
    have htrue : hasErrorCheck results = true := by
      by_contra hfalse
      have h := (hasErrorCheck_eq_false_iff results).mp
        (Bool.eq_false_iff.mpr hfalse)
      rcases hbad with ⟨r, hr, hcase⟩
      rcases h r hr with ⟨h1, h2⟩
      rcases hcase with he | ht
      · exact he h1
      · exact h2 ht
    have heq : processMapResults commitErr rollbackErr results =
        (results.filterMap (fun r => r.tx.map FinalizeAction.rollback),
         some "map phase completed with errors; all transactions rolled back") := by
      simp [processMapResults, htrue]
    refine ⟨by rw [heq], ?_, by rw [heq]; simp⟩
    intro t ht
    rw [heq] at ht
    simp only [List.mem_filterMap, Option.map_eq_some'] at ht
    rcases ht with ⟨r, -, u, -, habs⟩
    simp at habs

/-- Witness for C1 at concrete inputs: two clean results commit and
succeed; a run containing one errored result rolls back both
transactions and fails. -/
theorem processMapResults_barrier_witness :
    (processMapResults (fun _ => none) (fun _ => none)
        [⟨0, none, some 10⟩, ⟨1, none, some 11⟩] =
      ([FinalizeAction.commit 10, FinalizeAction.commit 11], none)) ∧
    ((processMapResults (fun _ => none) (fun _ => none)
        [⟨0, some "row error", some 10⟩, ⟨1, none, some 11⟩]).1 =
      [FinalizeAction.rollback 10, FinalizeAction.rollback 11]) := by
  constructor
  · have h := (processMapResults_barrier (fun _ => none) (fun _ => none)
      [⟨0, none, some 10⟩, ⟨1, none, some 11⟩]).1
      (by intro r hr; fin_cases hr <;> simp)
      (by intro r hr t ht; rfl)
    simpa using h.1
  · have h := (processMapResults_barrier (fun _ => none) (fun _ => none)
      [⟨0, some "row error", some 10⟩, ⟨1, none, some 11⟩]).2
      ⟨⟨0, some "row error", some 10⟩, by simp, Or.inl (by simp)⟩
    simpa using h.1

theorem commitLoop_first_failure (commitErr : Nat → Option String)
    (pre : List MapResult) (r : MapResult) (post : List MapResult)
    (hpre : ∀ q ∈ pre, ∀ t, q.tx = some t → commitErr t = none)
    (t : Nat) (e : String) (ht : r.tx = some t) (he : commitErr t = some e) :
    commitLoop commitErr (pre ++ r :: post) =
      (pre.filterMap (fun q => q.tx.map FinalizeAction.commit) ++ [FinalizeAction.commit t],
       some ("failed to commit transaction for batch " ++ toString r.batchID ++ ": " ++ e)) := by
  induction pre with
  | nil => simp [commitLoop, ht, he]
  | cons q qs ih =>
    have hq : ∀ u, q.tx = some u → commitErr u = none :=
      fun u hu => hpre q (List.mem_cons_self q qs) u hu
    have hqs : ∀ p ∈ qs, ∀ u, p.tx = some u → commitErr u = none :=
      fun p hp u hu => hpre p (List.mem_cons_of_mem q hp) u hu
    cases htx : q.tx with
    | none => simp [commitLoop, htx, ih hqs]
    | some u => simp [commitLoop, htx, hq u htx, ih hqs]

/-- C4 counterexample: with two clean results whose transactions are 0
and 1, and a store that fails the commit of transaction 0,
`ProcessMapResults` performs only the failing commit and returns its
error — the commit of transaction 1 is never attempted, contrary to
the claim that a commit failure does not stop finalization of the
remaining transactions. -/
theorem processMapResults_commitFailure_counterexample :
    processMapResults (fun t => if t = 0 then some "commit failed" else none)
        (fun _ => none) [⟨0, none, some 0⟩, ⟨1, none, some 1⟩] =
      ([FinalizeAction.commit 0],
       some "failed to commit transaction for batch 0: commit failed") ∧
    FinalizeAction.commit 1 ∉
      (processMapResults (fun t => if t = 0 then some "commit failed" else none)
        (fun _ => none) [⟨0, none, some 0⟩, ⟨1, none, some 1⟩]).1 := by
  refine ⟨?_, ?_⟩
  · simp only [processMapResults, hasErrorCheck, commitLoop]
    norm_num
    rfl
  · simp [processMapResults, hasErrorCheck, commitLoop]

/-- C4 amended: finalization of `ProcessMapResults`
(dbtransposer/dbtransposer.go lines 191-218).
(a) In the rollback branch, `Rollback` is attempted on every non-nil
transaction regardless of individual rollback outcomes (rollback
failures are only logged).
(b) In the commit branch, the FIRST commit failure stops finalization:
the performed actions are exactly the commits before the failing
transaction plus the failing commit itself (the remaining transactions
are not finalized), and the run's error is that first commit
failure. -/
theorem processMapResults_bestEffort_amended
    (commitErr rollbackErr : Nat → Option String) (results : List MapResult) :
    (hasErrorCheck results = true →
      ∀ r ∈ results, ∀ t, r.tx = some t →
        FinalizeAction.rollback t ∈ (processMapResults commitErr rollbackErr results).1) ∧
    (hasErrorCheck results = false →
      ∀ pre r post, results = pre ++ r :: post →
        (∀ q ∈ pre, ∀ t, q.tx = some t → commitErr t = none) →
        ∀ t e, r.tx = some t → commitErr t = some e →
          processMapResults commitErr rollbackErr results =
            (pre.filterMap (fun q => q.tx.map FinalizeAction.commit) ++
               [FinalizeAction.commit t],
             some ("failed to commit transaction for batch " ++
                toString r.batchID ++ ": " ++ e))) := by
  constructor
  · intro htrue r hr t ht
    simp only [processMapResults, htrue, if_true]
    exact List.mem_filterMap.mpr ⟨r, hr, by simp [ht]⟩
  · intro hfalse pre r post hsplit hpre t e ht he
    simp only [processMapResults, hfalse]
    rw [if_neg (by simp [hfalse]), hsplit]
    exact commitLoop_first_failure commitErr pre r post hpre t e ht he

/-- Witness for C4 amended: a rollback-mode run attempts both
rollbacks even though rolling back transaction 10 fails, and in a
commit-mode run whose second commit fails the actions are the first
commit followed by the failing one. -/
theorem processMapResults_bestEffort_witness :
    FinalizeAction.rollback 10 ∈
      (processMapResults (fun _ => none) (fun t => if t = 10 then some "rollback failed" else none)
        [⟨0, some "row error", some 10⟩, ⟨1, none, some 11⟩]).1 ∧
    processMapResults (fun t => if t = 11 then some "late failure" else none) (fun _ => none)
        [⟨0, none, some 10⟩, ⟨1, none, some 11⟩] =
      ([FinalizeAction.commit 10, FinalizeAction.commit 11],
       some "failed to commit transaction for batch 1: late failure") := by
  constructor
  · exact (processMapResults_bestEffort_amended
      (fun _ => none) (fun t => if t = 10 then some "rollback failed" else none)
      [⟨0, some "row error", some 10⟩, ⟨1, none, some 11⟩]).1
      (by simp [hasErrorCheck]) ⟨0, some "row error", some 10⟩ (by simp) 10 rfl
  · have h := (processMapResults_bestEffort_amended
      (fun t => if t = 11 then some "late failure" else none) (fun _ => none)
      [⟨0, none, some 10⟩, ⟨1, none, some 11⟩]).2
      (by simp [hasErrorCheck])
      [⟨0, none, some 10⟩] ⟨1, none, some 11⟩ [] rfl
      (by intro q hq u hu; fin_cases hq; simp at hu; simp [← hu])
      11 "late failure" rfl (by simp)
    simpa using h

/-- The batch-size computation of `MapReduce` (unnamed mapreduce file
`part_000` line 61, and mapreduce/mapreduce.go line 93):
`batchSize := (len(records) + workerCount - 1) / workerCount`.
In Go an integer division by zero panics; the embedding returns `none`
for `workerCount = 0` to model that panic. -/
def batchSizeGo (n workerCount : Nat) : Option Nat :=
  if workerCount = 0 then none
  else some ((n + workerCount - 1) / workerCount)

/-- The batch-emission loop of `MapReduce` (unnamed mapreduce file
`part_000` lines 62-68): `for i := 0; i < len(records); i += batchSize`
emits `records[i:end]` with `end = min(i+batchSize, len(records))`.
The `0 < bs` guard is required for termination of the embedding; the
Go loop does not terminate when `batchSize = 0` and records remain,
a situation `MapReduce` itself never produces (`batchSize ≥ 1`
whenever the record list is non-empty). -/
def chunkGo (l : List α) (bs i : Nat) : List (List α) :=
  if h : i < l.length ∧ 0 < bs then
    ((l.drop i).take bs) :: chunkGo l bs (i + bs)
  else []
termination_by l.length - i
decreasing_by simp_wf; omega

/-- The dispatch stage of `MapReduce` (unnamed mapreduce file
`part_000` lines 59-70): compute the batch size, then emit the
contiguous batches in index order.  `none` models the division-by-zero
panic for `workerCount = 0`. -/
def mapReduceBatches (records : List α) (workerCount : Nat) :
    Option (List (List α)) :=
  (batchSizeGo records.length workerCount).map (fun bs => chunkGo records bs 0)

theorem chunkGo_eq_nil_iff (l : List α) (bs i : Nat) :
    chunkGo l bs i = [] ↔ ¬(i < l.length ∧ 0 < bs) := by
  rw [chunkGo]
  split
  · simp_all
  · simp_all

theorem chunkGo_join (l : List α) (bs : Nat) (hbs : 0 < bs) (i : Nat) :
    (chunkGo l bs i).flatten = l.drop i := by
  have H : ∀ n i, l.length - i ≤ n → (chunkGo l bs i).flatten = l.drop i := by
    intro n
    induction n with
    | zero =>
      intro i hi
      rw [chunkGo, dif_neg (by omega), List.drop_eq_nil_of_le (by omega)]
      rfl
    | succ n ih =>
      intro i hi
      by_cases hcond : i < l.length
      · rw [chunkGo, dif_pos ⟨hcond, hbs⟩, List.flatten_cons, ih (i + bs) (by omega)]
        exact List.drop_take_append_drop l i bs
      · rw [chunkGo, dif_neg (by omega), List.drop_eq_nil_of_le (by omega)]
        rfl
  exact H (l.length - i) i le_rfl

theorem chunkGo_mem_length (l : List α) (bs : Nat) (hbs : 0 < bs) (i : Nat) :
    ∀ b ∈ chunkGo l bs i, b ≠ [] ∧ b.length ≤ bs := by
  have H : ∀ n i, l.length - i ≤ n →
      ∀ b ∈ chunkGo l bs i, b ≠ [] ∧ b.length ≤ bs := by
    intro n
    induction n with
    | zero =>
      intro i hi b hb
      rw [chunkGo, dif_neg (by omega)] at hb
      exact absurd hb (List.not_mem_nil b)
    | succ n ih =>
      intro i hi b hb
      by_cases hcond : i < l.length
      · rw [chunkGo, dif_pos ⟨hcond, hbs⟩] at hb
        rcases List.mem_cons.mp hb with hb | hb
        · subst hb
          constructor
          · have : ((l.drop i).take bs).length = min bs (l.length - i) := by
              simp [List.length_take, List.length_drop]
            intro hnil
            rw [hnil] at this
            simp at this
            omega
          · simpa [List.length_take] using Nat.min_le_left bs (l.drop i).length
        · exact ih (i + bs) (by omega) b hb
      · rw [chunkGo, dif_neg (by omega)] at hb
        exact absurd hb (List.not_mem_nil b)
  exact H (l.length - i) i le_rfl

theorem chunkGo_dropLast_length (l : List α) (bs : Nat) (hbs : 0 < bs) (i : Nat) :
    ∀ b ∈ (chunkGo l bs i).dropLast, b.length = bs := by
  have H : ∀ n i, l.length - i ≤ n →
      ∀ b ∈ (chunkGo l bs i).dropLast, b.length = bs := by
    intro n
    induction n with
    | zero =>
      intro i hi b hb
      rw [chunkGo, dif_neg (by omega)] at hb
      exact absurd hb (List.not_mem_nil b)
    | succ n ih =>
      intro i hi b hb
      by_cases hcond : i < l.length
      · rw [chunkGo, dif_pos ⟨hcond, hbs⟩] at hb
        by_cases hrest : chunkGo l bs (i + bs) = []
        · rw [hrest] at hb
          simp at hb
        · have hlt : i + bs < l.length := by
            have := (chunkGo_eq_nil_iff l bs (i + bs)).not.mp hrest
            push_neg at this
            omega
          rw [List.dropLast_cons_of_ne_nil hrest] at hb
          rcases List.mem_cons.mp hb with hb | hb
          · subst hb
            simp [List.length_take, List.length_drop]
            omega
          · exact ih (i + bs) (by omega) b hb
      · rw [chunkGo, dif_neg (by omega)] at hb
        exact absurd hb (List.not_mem_nil b)
  exact H (l.length - i) i le_rfl

theorem chunkGo_getElem? (l : List α) (bs : Nat) (hbs : 0 < bs) :
    ∀ k i, (chunkGo l bs i).get? k =
      if i + k * bs < l.length then some ((l.drop (i + k * bs)).take bs)
      else none := by
  intro k
  induction k with
  | zero =>
    intro i
    rw [chunkGo]
    by_cases hcond : i < l.length
    · rw [dif_pos ⟨hcond, hbs⟩]
      simp [hcond]
    · rw [dif_neg (by omega)]
      rw [if_neg (by simp only [Nat.zero_mul, Nat.add_zero]; omega)]
      rfl
  | succ k ih =>
    intro i
    rw [chunkGo]
    by_cases hcond : i < l.length
    · rw [dif_pos ⟨hcond, hbs⟩]
      have := ih (i + bs)
      simp only [List.get?_cons_succ, this]
      have harith : i + bs + k * bs = i + (k + 1) * bs := by ring
      rw [harith]
    · rw [dif_neg (by omega)]
      have h1 : l.length ≤ i := Nat.le_of_not_lt hcond
      have h2 : i ≤ i + (k + 1) * bs := Nat.le_add_right _ _
      rw [if_neg (Nat.not_lt.mpr (h1.trans h2))]
      rfl

/-- The bulk dispatcher of `MapReduce` in unnamed mapreduce file
`part_000` (lines 59-70) partitions the input.  For `0 < w` it
computes batch size `bs = (N + w - 1) / w` (the ceiling of `N / w`:
the least number of rows per batch so that `w` batches cover `N`),
and the emitted batches (i) concatenate, in order, to exactly the
input (no record duplicated or dropped), (ii) are each non-empty and
of length at most `bs` (the last possibly smaller), (iii) batch `k`
is the contiguous index slice starting at `k * bs`, hence batches are
pairwise disjoint index ranges. -/
theorem mapReduce_partition (records : List α) (w : Nat) (hw : 0 < w) :
    ∃ bs batches,
      batchSizeGo records.length w = some bs ∧
      bs = (records.length + w - 1) / w ∧
      (0 < records.length → records.length ≤ bs * w ∧ bs * w < records.length + w) ∧
      mapReduceBatches records w = some batches ∧
      batches.flatten = records ∧
      (∀ b ∈ batches, b ≠ [] ∧ b.length ≤ bs) ∧
      (∀ b ∈ batches.dropLast, b.length = bs) ∧
      (∀ k, batches.get? k =
        if k * bs < records.length then some ((records.drop (k * bs)).take bs)
        else none) := by
  refine ⟨(records.length + w - 1) / w, chunkGo records ((records.length + w - 1) / w) 0,
    ?_, rfl, ?_, ?_, ?_, ?_, ?_, ?_⟩
  · simp [batchSizeGo, Nat.pos_iff_ne_zero.mp hw]
  · intro hn
    have hdm := Nat.div_add_mod (records.length + w - 1) w
    have hmod : (records.length + w - 1) % w < w := Nat.mod_lt _ hw
    obtain ⟨p, hp⟩ : ∃ p, p = w * ((records.length + w - 1) / w) := ⟨_, rfl⟩
    rw [← hp] at hdm
    constructor
    · rw [Nat.mul_comm, ← hp]
      omega
    · rw [Nat.mul_comm, ← hp]
      omega
  · simp [mapReduceBatches, batchSizeGo, Nat.pos_iff_ne_zero.mp hw]
  · rcases Nat.eq_zero_or_pos records.length with hn | hn
    · have : records = [] := List.length_eq_zero.mp hn
      subst this
      rw [chunkGo, dif_neg (by simp)]
      rfl
    · have hbs : 0 < (records.length + w - 1) / w :=
        Nat.div_pos (by omega) hw
      simpa using chunkGo_join records _ hbs 0
  · rcases Nat.eq_zero_or_pos records.length with hn | hn
    · intro b hb
      rw [chunkGo, dif_neg (by omega)] at hb
      exact absurd hb (List.not_mem_nil b)
    · have hbs : 0 < (records.length + w - 1) / w :=
        Nat.div_pos (by omega) hw
      exact chunkGo_mem_length records _ hbs 0
  · rcases Nat.eq_zero_or_pos records.length with hn | hn
    · intro b hb
      rw [chunkGo, dif_neg (by omega)] at hb
      exact absurd hb (List.not_mem_nil b)
    · have hbs : 0 < (records.length + w - 1) / w :=
        Nat.div_pos (by omega) hw
      exact chunkGo_dropLast_length records _ hbs 0
  · rcases Nat.eq_zero_or_pos records.length with hn | hn
    · intro k
      rw [chunkGo, dif_neg (by omega)]
      simp [hn]
    · have hbs : 0 < (records.length + w - 1) / w :=
        Nat.div_pos (by omega) hw
      intro k
      simpa using chunkGo_getElem? records _ hbs k 0

/-- Concrete check of the `part_000` dispatcher: ten records, two
workers — batch size 5, two batches of five records each,
concatenating to the input. -/
theorem mapReduce_partition_witness :
    mapReduceBatches [0, 1, 2, 3, 4, 5, 6, 7, 8, 9] 2 =
      some [[0, 1, 2, 3, 4], [5, 6, 7, 8, 9]] ∧
    [[0, 1, 2, 3, 4], [5, 6, 7, 8, 9]].flatten = [0, 1, 2, 3, 4, 5, 6, 7, 8, 9] := by
  have h := mapReduce_partition [0, 1, 2, 3, 4, 5, 6, 7, 8, 9] 2 (by decide)
  rcases h with ⟨bs, batches, h1, h2, -, h4, h5, -⟩
  have hbs : bs = 5 := by rw [h2]; rfl
  subst hbs
  have hb : batches = [[0, 1, 2, 3, 4], [5, 6, 7, 8, 9]] := by
    have := h4
    rw [show mapReduceBatches [0, 1, 2, 3, 4, 5, 6, 7, 8, 9] 2 =
        some (chunkGo [0, 1, 2, 3, 4, 5, 6, 7, 8, 9] 5 0) from rfl] at this
    have hc : chunkGo [0, 1, 2, 3, 4, 5, 6, 7, 8, 9] 5 0 =
        [[0, 1, 2, 3, 4], [5, 6, 7, 8, 9]] := by
      rw [chunkGo, dif_pos (by simp)]
      rw [chunkGo, dif_pos (by simp)]
      rw [chunkGo, dif_neg (by simp)]
      rfl
    rw [hc] at this
    exact (Option.some_inj.mp this).symm
  subst hb
  exact ⟨h4, h5⟩

/-- The batch-emission loop of `MapReduce` in mapreduce/mapreduce.go
(lines 91-102): the same `for i := 0; i < len(records); i += batchSize`
loop as `part_000`, but the batch send at line 99
(`//taskChan <- records[i:end]`) is commented out, so no slice is ever
emitted for any iteration.  The `0 < bs` guard is for termination of
the embedding, as in `chunkGo`. -/
def chunkGoMRg (l : List α) (bs i : Nat) : List (List α) :=
  if h : i < l.length ∧ 0 < bs then
    chunkGoMRg l bs (i + bs)
  else []
termination_by l.length - i
decreasing_by simp_wf; omega

/-- The dispatch stage of `MapReduce` in mapreduce/mapreduce.go
(lines 91-102): the batch size is computed exactly as in `part_000`,
but the emission loop sends nothing. -/
def mapReduceBatchesMRg (records : List α) (workerCount : Nat) :
    Option (List (List α)) :=
  (batchSizeGo records.length workerCount).map (fun bs => chunkGoMRg records bs 0)

theorem chunkGoMRg_eq_nil (l : List α) (bs i : Nat) : chunkGoMRg l bs i = [] := by
  have H : ∀ n i, l.length - i ≤ n → chunkGoMRg l bs i = [] := by
    intro n
    induction n with
    | zero =>
      intro i hi
      rw [chunkGoMRg, dif_neg (by omega)]
    | succ n ih =>
      intro i hi
      by_cases hcond : i < l.length ∧ 0 < bs
      · rw [chunkGoMRg, dif_pos hcond]
        exact ih (i + bs) (by omega)
      · rw [chunkGoMRg, dif_neg hcond]
  exact H (l.length - i) i le_rfl

/-- C5 counterexample: the dispatcher of mapreduce/mapreduce.go
(lines 91-102) applied to one record and two workers emits NO batches
(the send at line 99 is commented out), so there is no emitted batch
list whose union is the input — the record is dropped, refuting the
partition claim for this cited dispatcher. -/
theorem mapReduceMRg_dropsRecords_counterexample :
    mapReduceBatchesMRg [(0 : Nat)] 2 = some [] ∧
    ¬ ∃ batches, mapReduceBatchesMRg [(0 : Nat)] 2 = some batches ∧
        batches.flatten = [0] := by
  have hnil : mapReduceBatchesMRg [(0 : Nat)] 2 = some [] := by
    rw [show mapReduceBatchesMRg [(0 : Nat)] 2 =
        some (chunkGoMRg [(0 : Nat)] 1 0) from rfl]
    rw [chunkGoMRg_eq_nil]
  refine ⟨hnil, ?_⟩
  rintro ⟨batches, heq, hfl⟩
  rw [hnil] at heq
  rcases Option.some_inj.mp heq with rfl
  simp at hfl

/-- C5 amended: the two cited dispatchers diverge.
(a) The `part_000` bulk dispatcher (lines 59-70) satisfies the claim:
for `0 < w` it computes batch size `⌈N/w⌉` and emits non-empty
contiguous-index batches in index order, the last possibly smaller,
which are pairwise disjoint index slices concatenating to exactly the
input.
(b) The mapreduce/mapreduce.go dispatcher (lines 91-102) computes the
same batch size but its batch send (line 99) is commented out: it
emits NO batches, so every record is dropped. -/
theorem mapReduce_partition_amended (records : List α) (w : Nat) (hw : 0 < w) :
    (∃ bs batches,
      batchSizeGo records.length w = some bs ∧
      bs = (records.length + w - 1) / w ∧
      (0 < records.length → records.length ≤ bs * w ∧ bs * w < records.length + w) ∧
      mapReduceBatches records w = some batches ∧
      batches.flatten = records ∧
      (∀ b ∈ batches, b ≠ [] ∧ b.length ≤ bs) ∧
      (∀ b ∈ batches.dropLast, b.length = bs) ∧
      (∀ k, batches.get? k =
        if k * bs < records.length then some ((records.drop (k * bs)).take bs)
        else none)) ∧
    mapReduceBatchesMRg records w = some [] := by
  constructor
  · exact mapReduce_partition records w hw
  · simp only [mapReduceBatchesMRg, batchSizeGo, Nat.pos_iff_ne_zero.mp hw,
      if_false, Option.map_some']
    rw [chunkGoMRg_eq_nil]

/-- Witness for C5 amended: one record and two workers — `part_000`
emits a single batch carrying the record, while the mapreduce.go
dispatcher emits no batch at all. -/
theorem mapReduce_partition_amended_witness :
    (∃ batches, mapReduceBatches [(0 : Nat)] 2 = some batches ∧
      batches.flatten = [0]) ∧
    mapReduceBatchesMRg [(0 : Nat)] 2 = some [] := by
  have h := mapReduce_partition_amended [(0 : Nat)] 2 (by decide)
  constructor
  · rcases h.1 with ⟨bs, batches, -, -, -, h4, h5, -⟩
    exact ⟨batches, h4, h5⟩
  · exact h.2

/-- C10: `workerCount > 0` is a necessary precondition of the
`MapReduce` batch-size computation (unnamed mapreduce file `part_000`
line 61, mapreduce/mapreduce.go line 93): for `workerCount = 0` the Go
division panics (modelled by `none`), while for `workerCount > 0` and
a non-empty record list it is total and yields a batch size of at
least 1. -/
theorem batchSizeGo_precondition (n w : Nat) :
    batchSizeGo n 0 = none ∧
    (0 < w → 0 < n → ∃ bs, batchSizeGo n w = some bs ∧ 1 ≤ bs) := by
  constructor
  · rfl
  · intro hw hn
    exact ⟨(n + w - 1) / w, by simp [batchSizeGo, Nat.pos_iff_ne_zero.mp hw],
      Nat.div_pos (by omega) hw⟩

/-- Witness for C10: for three records and two workers the batch size
is defined and equals 2 ≥ 1; for zero workers it is undefined. -/
theorem batchSizeGo_precondition_witness :
    batchSizeGo 3 0 = none ∧ ∃ bs, batchSizeGo 3 2 = some bs ∧ 1 ≤ bs := by
  refine ⟨(batchSizeGo_precondition 3 2).1, (batchSizeGo_precondition 3 2).2 ?_ ?_⟩
  · decide
  · decide

/-- The per-batch worker of the bulk `MapReduce` (unnamed mapreduce
file `part_000` lines 30-43).  For EACH batch received it starts a
fresh transaction and sends one `MapResult`; `assigned` lists, per
received batch in order, the store's `db.Begin()` outcome and (when
Begin succeeded) the map function's outcome on that batch.  `batchID`
is the worker's index, fixed at spawn. -/
def workerP0 (assigned : List (Except String Nat × Option String))
    (batchID : Nat) : List MapResult :=
  assigned.map (fun bo =>
    match bo.1 with
    | Except.error e => ⟨batchID, some e, none⟩
    | Except.ok t => ⟨batchID, bo.2, some t⟩)

/-- The batch loop of the per-worker-transaction worker (unnamed
mapreduce file `part_002` lines 43-50): for each batch, run the map
function inside the worker's single transaction; on error `continue`
(skip the counter increment) — the loop does NOT stop; the `err`
variable is overwritten on every iteration.  Returns the final value
of `err` and the number of counter increments. -/
def workerLoopP2 : List (Option String) → Option String → Nat →
    Option String × Nat
  | [], err, cnt => (err, cnt)
  | o :: rest, _, cnt =>
    match o with
    | some e => workerLoopP2 rest (some e) cnt
    | none => workerLoopP2 rest none (cnt + 1)

/-- The per-worker-transaction worker (unnamed mapreduce file
`part_002` lines 31-51).  On start it opens one transaction; if that
fails it emits a single `MapResult` with a nil transaction and
terminates without processing any batch.  Otherwise it processes every
batch of `outcomes` (the map function's outcome per received batch, in
order) and the deferred send emits a single `MapResult` carrying the
final value of `err`.  Returns the emitted results and the counter
increments. -/
def workerP2 (beginRes : Except String Nat) (outcomes : List (Option String))
    (batchID : Nat) : List MapResult × Nat :=
  match beginRes with
  | Except.error e => ([⟨batchID, some e, none⟩], 0)
  | Except.ok t =>
    let lp := workerLoopP2 outcomes none 0
    ([⟨batchID, lp.1, some t⟩], lp.2)

theorem workerLoopP2_fst (outcomes : List (Option String))
    (e0 : Option String) (c0 : Nat) :
    (workerLoopP2 outcomes e0 c0).1 = outcomes.foldl (fun _ o => o) e0 := by
  induction outcomes generalizing e0 c0 with
  | nil => rfl
  | cons o rest ih =>
    cases o with
    | none => rw [workerLoopP2, ih none (c0 + 1)]; rfl
    | some e => rw [workerLoopP2, ih (some e) c0]; rfl

theorem workerLoopP2_snd (outcomes : List (Option String))
    (e0 : Option String) (c0 : Nat) :
    (workerLoopP2 outcomes e0 c0).2 =
      c0 + outcomes.countP (fun o => o.isNone) := by
  induction outcomes generalizing e0 c0 with
  | nil => simp [workerLoopP2]
  | cons o rest ih =>
    cases o with
    | none =>
      rw [workerLoopP2, ih none (c0 + 1), List.countP_cons]
      simp
      omega
    | some e =>
      rw [workerLoopP2, ih (some e) c0, List.countP_cons]
      simp

/-- C2 counterexample: a worker whose first batch fails ("boom") and
whose second batch succeeds emits a single `MapResult` with a NIL
error (the later success overwrote the earlier failure) and its
counter shows the second batch was still processed — the worker did
not stop at the first error and the first error is not carried in its
result. -/
theorem workerP2_maskedError_counterexample :
    workerP2 (Except.ok 7) [some "boom", none] 3 = ([⟨3, none, some 7⟩], 1) ∧
    (workerP2 (Except.ok 7) [some "boom", none] 3).1.map MapResult.err ≠
      [some "boom"] := by
  constructor
  · rfl
  · intro h
    simp [workerP2, workerLoopP2] at h

/-- C2 amended: the worker of unnamed mapreduce file `part_002`
(lines 31-51) does not fail fast.  After a batch error it keeps
pulling batches (only the success counter is skipped); its single
`MapResult` carries the outcome of the LAST batch processed — a later
successful batch masks an earlier failure — and the success counter
equals the number of batches whose map call succeeded.  If the worker
cannot open its transaction it emits one result with a nil transaction
and processes nothing. -/
theorem workerP2_lastError_amended (t : Nat) (outcomes : List (Option String))
    (batchID : Nat) (e : String) :
    workerP2 (Except.ok t) outcomes batchID =
      ([⟨batchID, outcomes.foldl (fun _ o => o) none, some t⟩],
       outcomes.countP (fun o => o.isNone)) ∧
    workerP2 (Except.error e) outcomes batchID = ([⟨batchID, some e, none⟩], 0) := by
  constructor
  · rw [workerP2]
    simp only [workerLoopP2_fst outcomes none 0, workerLoopP2_snd outcomes none 0,
      Nat.zero_add]
  · rfl

/-- C8 counterexample: a bulk run of one record with two workers
produces a single batch, hence a single `MapResult` in total — the
coordinator receives 1 result, not one per worker (W = 2).  (The
assignment shown gives the only batch to worker 0 and nothing to
worker 1; any other schedule yields the same count.) -/
theorem workerResults_count_counterexample :
    mapReduceBatches [0] 2 = some [[0]] ∧
    (workerP0 [(Except.ok 5, none)] 0 ++ workerP0 [] 1).length = 1 ∧
    (1 : Nat) ≠ 2 := by
  refine ⟨?_, rfl, by decide⟩
  rw [show mapReduceBatches [0] 2 = some (chunkGo [0] 1 0) from rfl]
  rw [chunkGo, dif_pos (by simp)]
  rw [chunkGo, dif_neg (by simp)]
  rfl

/-- C8 amended: result cardinality per worker implementation.
(a) The per-worker-transaction worker (unnamed mapreduce file
`part_002` lines 31-51) emits exactly one `MapResult`, and its
transaction is nil exactly when the worker could never obtain one
(`db.Begin` failed at start, in which case it processes no batch).
(b) The per-batch worker of the bulk `MapReduce` (unnamed mapreduce
file `part_000` lines 30-43) emits one `MapResult` per batch it
receives, so the coordinator receives one result per batch — not per
worker. -/
theorem workerResults_cardinality_amended
    (beginRes : Except String Nat) (outcomes : List (Option String))
    (batchID : Nat)
    (assigned : List (Except String Nat × Option String)) (wid : Nat) :
    (workerP2 beginRes outcomes batchID).1.length = 1 ∧
    (∀ r ∈ (workerP2 beginRes outcomes batchID).1,
      (r.tx = none ↔ ∃ e, beginRes = Except.error e)) ∧
    (∀ e, beginRes = Except.error e →
      (workerP2 beginRes outcomes batchID).2 = 0) ∧
    (workerP0 assigned wid).length = assigned.length := by
  refine ⟨?_, ?_, ?_, by simp [workerP0]⟩
  · cases beginRes <;> simp [workerP2]
  · intro r hr
    cases beginRes with
    | error e =>
      simp [workerP2] at hr
      subst hr
      simp
    | ok t =>
      simp [workerP2] at hr
      subst hr
      simp
  · intro e he
    subst he
    rfl

/-- Witness for C8 amended: with a failed `Begin` the worker emits one
nil-transaction result and counts nothing; a two-batch assignment to a
per-batch worker yields two results. -/
theorem workerResults_cardinality_witness :
    (workerP2 (Except.error "no conn") [none, none] 4).1.length = 1 ∧
    (∀ r ∈ (workerP2 (Except.error "no conn") [none, none] 4).1,
      (r.tx = none ↔ ∃ e, (Except.error "no conn" : Except String Nat) = Except.error e)) ∧
    (workerP0 [(Except.ok 1, none), (Except.ok 1, some "dup")] 0).length = 2 := by
  have h := workerResults_cardinality_amended (Except.error "no conn")
    [none, none] 4 [(Except.ok 1, none), (Except.ok 1, some "dup")] 0
  exact ⟨h.1, h.2.1, by simpa using h.2.2.2⟩

/-- The per-stream result of the worker of mapreduce/mapreduce.go
(lines 32-58): for one received stream, `db.Begin` failure yields a
nil-transaction result with a wrapped error; otherwise the map
function's outcome is reported with the transaction (the second
`if err != nil` at lines 50-53 re-tests the same `err` and is dead
code). -/
def mrWorkerStreamResult (beginRes : Except String Nat)
    (mapOutcome : Option String) (batchID : Nat) : MapResult :=
  match beginRes with
  | Except.error e => ⟨batchID, some ("failed to start transaction: " ++ e), none⟩
  | Except.ok t =>
    match mapOutcome with
    | some e => ⟨batchID, some e, some t⟩
    | none => ⟨batchID, none, some t⟩

/-- `MapReduceStreaming` of mapreduce/mapreduce.go (lines 121-161),
reduced with `ProcessMapResults`.  The producer goroutine (lines
134-146) sends a SINGLE stream on success; if `streamFunc` returns an
error it only logs it and closes the task channel, so no stream is
ever dispatched, every worker drains an empty channel and emits no
result, and the reduce stage runs on an empty result list.  On
success, exactly one worker receives the single stream and emits one
result (`receiverID` names that worker). -/
def mapReduceStreamingGo (streamErr : Option String)
    (beginRes : Except String Nat) (mapOutcome : Option String)
    (receiverID : Nat) (commitErr rollbackErr : Nat → Option String) :
    List FinalizeAction × Option String :=
  match streamErr with
  | some _ => processMapResults commitErr rollbackErr []
  | none =>
    processMapResults commitErr rollbackErr
      [mrWorkerStreamResult beginRes mapOutcome receiverID]

/-- C9: evaluation at the failing input.  When the record source fails
("source exploded") before producing anything, `MapReduceStreaming`
performs no finalization action and returns nil — the run reports
SUCCESS, indistinguishable from a clean empty run, instead of
propagating the source error. -/
theorem mapReduceStreaming_sourceError_eval :
    mapReduceStreamingGo (some "source exploded") (Except.ok 0) none 0
        (fun _ => none) (fun _ => none) = ([], none) ∧
    mapReduceStreamingGo none (Except.ok 0) none 0
        (fun _ => none) (fun _ => none) = ([FinalizeAction.commit 0], none) := by
  constructor
  · rfl
  · rfl

/-- A field of a Go struct as seen by the reflection loop of
`ExtractSQLData` (dbtransposer/dbtransposer.go lines 238-292): a
scalar field, a slice field whose elements are structs (each a field
list), or an embedded anonymous struct.  Every field carries its `db`
tag (possibly empty). -/
inductive GField (α : Type) where
  | scalar (dbTag : String) (v : α)
  | slice (dbTag : String) (elems : List (List (GField α)))
  | anon (dbTag : String) (sub : List (GField α))

/-- The final step of `ExtractSQLData` (dbtransposer/dbtransposer.go
lines 296-298): if no slice produced rows, the base row becomes the
single row.  State is `(columns, baseRow, rows)`. -/
def finalizeRows (st : List String × List α × List (List α)) :
    List String × List (List α) :=
  (st.1,
   match st.2.2 with
   | [] => [st.2.1]
   | r :: rs => r :: rs)

mutual

/-- The field loop of `ExtractSQLData` (dbtransposer/dbtransposer.go
lines 238-293).  A field whose `db` tag is empty or "-" is skipped
(line 243, tested before the anonymous/slice dispatch); an anonymous
field contributes its nested columns and the first nested row to the
base row (lines 247-257); a slice field runs the per-element loop
(lines 258-287); a scalar field appends its tag and value (lines
288-292). -/
def extractFieldsGo : List (GField α) →
    List String × List α × List (List α) →
    List String × List α × List (List α)
  | [], st => st
  | GField.scalar tag v :: rest, (cols, base, rows) =>
    if tag = "" ∨ tag = "-" then extractFieldsGo rest (cols, base, rows)
    else extractFieldsGo rest (cols ++ [tag], base ++ [v], rows)
  | GField.anon tag sub :: rest, (cols, base, rows) =>
    if tag = "" ∨ tag = "-" then extractFieldsGo rest (cols, base, rows)
    else
      let nested := finalizeRows (extractFieldsGo sub ([], [], []))
      let base2 :=
        match nested.2 with
        | [] => base
        | r0 :: _ => base ++ r0
      extractFieldsGo rest (cols ++ nested.1, base2, rows)
  | GField.slice tag elems :: rest, (cols, base, rows) =>
    if tag = "" ∨ tag = "-" then extractFieldsGo rest (cols, base, rows)
    else
      let st2 := sliceLoopGo elems 0 base (cols, rows)
      extractFieldsGo rest (st2.1, base, st2.2)

/-- The per-element slice loop of `ExtractSQLData`
(dbtransposer/dbtransposer.go lines 260-287).  Each element is
extracted recursively; when `rows` is still empty the element rows are
appended to the base row, otherwise every EXISTING row is extended
with every element row (lines 272-281) — a cross product; element
columns are appended only for the first element (lines 284-286). -/
def sliceLoopGo : List (List (GField α)) → Nat → List α →
    List String × List (List α) → List String × List (List α)
  | [], _, _, st => st
  | elem :: restE, j, base, (cols, rows) =>
    let eres := finalizeRows (extractFieldsGo elem ([], [], []))
    let rows2 :=
      match rows with
      | [] => eres.2.map (fun r => base ++ r)
      | e :: es => (e :: es).flatMap (fun ex => eres.2.map (fun r => ex ++ r))
    let cols2 := if j = 0 then cols ++ eres.1 else cols
    sliceLoopGo restE (j + 1) base (cols2, rows2)

end

/-- `ExtractSQLData` (dbtransposer/dbtransposer.go lines 221-301) on a
struct given as its field list: run the field loop on the empty state,
then finalize. -/
def extractSQLData (fields : List (GField α)) : List String × List (List α) :=
  finalizeRows (extractFieldsGo fields ([], [], []))

/-- C3 failing input: one scalar base field and two sibling
single-element slice fields. -/
def c3record : List (GField Nat) :=
  [GField.scalar "base" 0,
   GField.slice "f1" [[GField.scalar "x" 1]],
   GField.slice "f2" [[GField.scalar "y" 2]]]

/-- C3: evaluation of `ExtractSQLData` at the failing input.  Two
sibling collections of one element each yield a SINGLE row carrying
both elements (the second slice cross-multiplied the rows produced by
the first), not the two concatenated rows `[base, x]`, `[base, y]`
required by the claim (row count = sum of the collections' lengths). -/
theorem extractSQLData_crossProduct_eval :
    extractSQLData c3record = (["base", "x", "y"], [[0, 1, 2]]) ∧
    (extractSQLData c3record).2 ≠ [[0, 1], [0, 2]] := by
  have heval : extractSQLData c3record = (["base", "x", "y"], [[0, 1, 2]]) := by
    simp [extractSQLData, c3record, extractFieldsGo, sliceLoopGo, finalizeRows]
  refine ⟨heval, ?_⟩
  rw [heval]
  decide

/-- Surrounds a column name with double quotes, as
`fmt.Sprintf("\"%s\"", key)` does. -/
def quoteCol (s : String) : String := "\"" ++ s ++ "\""

/-- `ExtractSQLDataUsingSchema` (unnamed dbtransposer file `part_010`
lines 120-143).  The record is a key/value mapping (the Go map's
iteration order is modelled by the association list's order);
`modelName` — the schema reference — is accepted and never used, as in
the source: every record key becomes a quoted column and every value
joins the single row.  No schema filtering happens. -/
def extractSQLDataUsingSchema (record : List (String × α))
    (modelName : String) : List String × List (List α) :=
  (record.map (fun kv => quoteCol kv.1), [record.map (fun kv => kv.2)])

/-- A sample schema allow-list (the template column set the
surrounding `InsertRecordsUsingSchema` reads from the Excel template
before discarding it, unnamed dbtransposer file `part_010` lines
25-33). -/
def sampleSchemaAllowList : List String := ["user", "dt_created", "dt_submitted"]

/-- C6: evaluation at the failing input.  A record whose only key,
`evil_col`, is absent from the schema allow-list still yields that key
as the single column of the generated INSERT: the schema parameter is
ignored and no filtering occurs, contradicting the claim (and the
function's own documentation). -/
theorem extractSQLDataUsingSchema_ignoresSchema_eval :
    extractSQLDataUsingSchema [("evil_col", "x")] "Record" =
      ([quoteCol "evil_col"], [["x"]]) ∧
    quoteCol "evil_col" ∉ sampleSchemaAllowList.map quoteCol := by
  refine ⟨rfl, ?_⟩
  decide

/-- The per-row placeholder loop of `InsertRecords`
(dbtransposer/dbtransposer.go lines 31-36): one `$k` placeholder per
value of the row, with the running global index; returns the
placeholder list and the advanced index. -/
def rowPlaceholdersGo : List α → Nat → List String × Nat
  | [], idx => ([], idx)
  | _ :: rest, idx =>
    let r := rowPlaceholdersGo rest (idx + 1)
    (("$" ++ toString idx) :: r.1, r.2)

/-- The all-rows loop of `InsertRecords` (dbtransposer/dbtransposer.go
lines 27-39): per row, a parenthesised placeholder group is appended
and the row's values are appended to the flat bound-value list. -/
def allPlaceholdersGo : List (List α) → Nat → List String × List α
  | [], _ => ([], [])
  | row :: rest, idx =>
    let rp := rowPlaceholdersGo row idx
    let ar := allPlaceholdersGo rest rp.2
    (("(" ++ String.intercalate ", " rp.1 ++ ")") :: ar.1, row ++ ar.2)

/-- The query construction of `InsertRecords`
(dbtransposer/dbtransposer.go lines 19-42): the SQL text built from
the table name, the column list and the placeholder groups, and the
flat bound-value list passed to `tx.Exec` (line 45). -/
def insertQuery (tableName : String) (columns : List String)
    (rows : List (List α)) : String × List α :=
  let ap := allPlaceholdersGo rows 1
  ("INSERT INTO " ++ tableName ++ " (" ++ String.intercalate ", " columns ++
     ") VALUES " ++ String.intercalate ", " ap.1,
   ap.2)

theorem rowPlaceholdersGo_shape (l1 l2 : List α) (idx : Nat)
    (hlen : l1.length = l2.length) :
    rowPlaceholdersGo l1 idx = rowPlaceholdersGo l2 idx := by
  induction l1 generalizing l2 idx with
  | nil =>
    cases l2 with
    | nil => rfl
    | cons b t => simp at hlen
  | cons a t ih =>
    cases l2 with
    | nil => simp at hlen
    | cons b t2 =>
      simp only [List.length_cons, Nat.succ.injEq] at hlen
      simp only [rowPlaceholdersGo, ih t2 (idx + 1) hlen]

theorem allPlaceholdersGo_fst_shape (rows1 rows2 : List (List α)) (idx : Nat)
    (hshape : rows1.map List.length = rows2.map List.length) :
    (allPlaceholdersGo rows1 idx).1 = (allPlaceholdersGo rows2 idx).1 := by
  induction rows1 generalizing rows2 idx with
  | nil =>
    cases rows2 with
    | nil => rfl
    | cons r t => simp at hshape
  | cons r t ih =>
    cases rows2 with
    | nil => simp at hshape
    | cons r2 t2 =>
      simp only [List.map_cons, List.cons.injEq] at hshape
      simp only [allPlaceholdersGo]
      rw [rowPlaceholdersGo_shape r r2 idx hshape.1, ih t2 _ hshape.2]

theorem allPlaceholdersGo_snd (rows : List (List α)) (idx : Nat) :
    (allPlaceholdersGo rows idx).2 = rows.flatten := by
  induction rows generalizing idx with
  | nil => rfl
  | cons r t ih => simp [allPlaceholdersGo, ih]

/-- C7: injection safety of the `InsertRecords` query builder
(dbtransposer/dbtransposer.go lines 12-52).  For any table name,
column list and two row-value lists of identical shape (same row
count, same per-row lengths), the generated SQL text is literally the
same string — the values influence only the bound-value list, which is
exactly the rows flattened in order.  Values therefore never reach the
statement text, so value content (SQL metacharacters included) cannot
change the statement's structure. -/
theorem insertQuery_valueIndependent (tableName : String)
    (columns : List String) (rows1 rows2 : List (List α))
    (hshape : rows1.map List.length = rows2.map List.length) :
    (insertQuery tableName columns rows1).1 =
      (insertQuery tableName columns rows2).1 ∧
    (insertQuery tableName columns rows1).2 = rows1.flatten := by
  constructor
  · simp only [insertQuery]
    rw [allPlaceholdersGo_fst_shape rows1 rows2 1 hshape]
  · simp only [insertQuery]
    exact allPlaceholdersGo_snd rows1 1

/-- Witness for C7: a value containing SQL metacharacters produces the
very same statement text as a plain value of the same shape. -/
theorem insertQuery_valueIndependent_witness :
    (insertQuery "SFLW_RECS" ["user", "status"]
        [["alice", "ok"], ["bob; DROP TABLE SFLW_RECS;--", "ok"]]).1 =
      (insertQuery "SFLW_RECS" ["user", "status"]
        [["carol", "new"], ["dave", "new"]]).1 ∧
    (insertQuery "SFLW_RECS" ["user", "status"]
        [["alice", "ok"], ["bob; DROP TABLE SFLW_RECS;--", "ok"]]).2 =
      ["alice", "ok", "bob; DROP TABLE SFLW_RECS;--", "ok"] := by
  have h := insertQuery_valueIndependent "SFLW_RECS" ["user", "status"]
    [["alice", "ok"], ["bob; DROP TABLE SFLW_RECS;--", "ok"]]
    [["carol", "new"], ["dave", "new"]] (by rfl)
  exact ⟨h.1, by rw [h.2]; rfl⟩

end DataIngestor
